import Mathlib

/-!
Verification of the webscraper repository (github.com/Exca-DK/webscraper).

Shallow embedding of the core data structures and loops:
* `prims.Queue`            (scraper/prims/queue.go)
* `prims.SimpleEvictableCache` (scraper/prims/cache.go), with the process-wide
  clock abstracted as a `now : Nat` argument (`time.Time` is modelled as `Nat`,
  the zero instant as `0`, and `a.After(b)` as `b < a`)
* the scrape scheduler's event loop (scraper/scrapper.go)
* the fetch task and task loop (scrape.go / taskLoop)
* the worker pool monitor (workers/pool.go), as a step relation

Go maps are modelled as association lists (`mapLookup` / `mapDelete`), Go's
zero-value map read as `(mapLookup m k).getD default`.  Callback invocations
(`onEviction`, analyzer `Analyze`/`Cancel`, job completion callbacks) are
modelled by returning the list of invocation events in program order.
-/

namespace Webscraper

/-! ## prims.Queue (scraper/prims/queue.go) -/

/-- Queue of T: `type Queue[T any] []T`. -/
abbrev Queue (T : Type) : Type := List T

/-- Push: `*q = append(*q, elem)`. -/
def Queue.Push {T : Type} (q : Queue T) (elem : T) : Queue T := q ++ [elem]

/-- Peek: returns the zero value and false on an empty queue, else the head and true. -/
def Queue.Peek {T : Type} [Inhabited T] (q : Queue T) : T × Bool :=
  match q with
  | [] => (default, false)
  | t :: _ => (t, true)

/-- The move helper: drops the head if the queue is non-empty. -/
def Queue.move {T : Type} (q : Queue T) : Queue T :=
  match q with
  | [] => []
  | _ :: rest => rest

/-- Pop: `elem, ok := q.Peek(); q.move(); return elem, ok`.
The mutated queue is returned alongside the Go return values. -/
def Queue.Pop {T : Type} [Inhabited T] (q : Queue T) : (T × Bool) × Queue T :=
  (q.Peek, q.move)

/-- Pops the queue `n` times, collecting the `(elem, ok)` results in order. -/
def Queue.PopTimes {T : Type} [Inhabited T] (q : Queue T) : Nat → List (T × Bool)
  | 0 => []
  | n + 1 =>
    let res := q.Pop
    res.1 :: res.2.PopTimes n

/-- Pushes a whole list of elements, in list order. -/
def Queue.PushAll {T : Type} (q : Queue T) (l : List T) : Queue T :=
  l.foldl (fun acc x => acc.Push x) q

theorem Queue.pushAll_eq_append {T : Type} (q : Queue T) (l : List T) :
    q.PushAll l = q ++ l := by
  induction l generalizing q with
  | nil => simp [Queue.PushAll]
  | cons x xs ih =>
    show Queue.PushAll (q.Push x) xs = _
    rw [ih]
    simp [Queue.Push]

theorem Queue.popTimes_self {T : Type} [Inhabited T] (q : Queue T) :
    q.PopTimes (List.length q) = q.map (fun x => (x, true)) := by
  induction q with
  | nil => rfl
  | cons x xs ih =>
    show (x, true) :: Queue.PopTimes xs xs.length = _
    rw [ih]
    rfl

/-! ## Go time and maps

`time.Time` is modelled as `Nat`: the zero instant is `0`, `a.After(b)` is
`b < a`, and `t.IsZero()` is `t = 0`.  A Go `map[K]A` is modelled as an
association list; `delete` removes the key, indexing a missing key yields the
zero value (`default`). -/

/-- Go `a.After(b)`: a is strictly later than b. -/
def timeAfter (a b : Nat) : Bool := decide (b < a)

/-- Lookup in a Go map modelled as an association list. -/
def mapLookup {K A : Type} [DecidableEq K] (m : List (K × A)) (k : K) : Option A :=
  match m with
  | [] => none
  | (k', a) :: rest => if k = k' then some a else mapLookup rest k

/-- Go `delete(m, k)`. -/
def mapDelete {K A : Type} [DecidableEq K] (m : List (K × A)) (k : K) : List (K × A) :=
  m.filter (fun p => decide (p.1 ≠ k))

theorem mapLookup_mapDelete {K A : Type} [DecidableEq K] (m : List (K × A)) (k key : K) :
    mapLookup (mapDelete m k) key = if key = k then none else mapLookup m key := by
  induction m with
  | nil => simp [mapLookup, mapDelete]
  | cons p rest ih =>
    obtain ⟨k', a⟩ := p
    simp only [mapDelete, List.filter_cons, ne_eq, decide_not] at ih ⊢
    by_cases hpk : k' = k
    · subst hpk
      by_cases hkey : key = k'
      · subst hkey
        simp [mapLookup, ih]
      · simp [mapLookup, hkey, ih]
    · by_cases hkey : key = k'
      · subst hkey
        simp [mapLookup, hpk, Ne.symm hpk]
      · simp [mapLookup, hkey, hpk, ih]

/-! ## prims.SimpleEvictableCache (scraper/prims/cache.go) -/

/-- expirableItem: an item with an associated expiration time. -/
structure expirableItem (T : Type) where
  V : T
  deadline : Nat
deriving DecidableEq, Repr

instance {T : Type} [Inhabited T] : Inhabited (expirableItem T) := ⟨⟨default, 0⟩⟩

/-- SimpleEvictableCache state: the map `m` and the eviction FIFO `q`.
The `onEviction` callback is modelled by returning the list of `(key, value)`
invocations from each operation. -/
structure SimpleEvictableCache (K V : Type) where
  m : List (K × expirableItem V)
  q : Queue (expirableItem K)
deriving DecidableEq, Repr

/-- NewSimpleEvictableCache: empty map, empty queue. -/
def NewSimpleEvictableCache (K V : Type) : SimpleEvictableCache K V := ⟨[], []⟩

/-- The comparator closure passed to `sort.SliceStable` in `mark`:
`!a.deadline.After(b.deadline)`, i.e. `a.deadline ≤ b.deadline`. -/
def markLess {K : Type} (a b : expirableItem K) : Bool :=
  !(timeAfter a.deadline b.deadline)

/-- One bubble-down pass of Go's insertion sort, as the equivalent ordered
insert into the already-sorted part: scanning from the left, `x` is placed at
the first position whose element `e` satisfies `markLess x e` (Go's inner loop
swaps `x` leftwards exactly while `markLess x e` holds against its left
neighbour, which on a non-decreasing block stops at the same boundary).
Because `markLess` is non-strict (`≤`), `x` lands BEFORE every element whose
deadline equals its own. -/
def sliceStableInsert {K : Type} (x : expirableItem K) :
    List (expirableItem K) → List (expirableItem K)
  | [] => [x]
  | e :: rest =>
    if markLess x e then x :: e :: rest else e :: sliceStableInsert x rest

/-- Go's `sort.SliceStable(e.q, func(i, j) { return !a.deadline.After(b.deadline) })`:
for slices within a single insertion-sort block (length ≤ 20, which covers every
queue considered here) `stable` is exactly one insertion-sort pass over the
whole slice, i.e. the left-to-right fold of the bubble-down insert. -/
def sliceStableSort {K : Type} (l : List (expirableItem K)) : List (expirableItem K) :=
  l.foldl (fun acc x => sliceStableInsert x acc) []

/-- mark: push `(key, deadline)` onto the FIFO, then re-sort it with
`sort.SliceStable` under the `markLess` comparator. -/
def SimpleEvictableCache.mark {K V : Type} (s : SimpleEvictableCache K V)
    (key : K) (deadline : Nat) : SimpleEvictableCache K V :=
  { s with q := sliceStableSort (s.q.Push ⟨key, deadline⟩) }

/-- tryEvict inner loop over the FIFO: while the head's deadline is strictly
before `now`, pop it, read the key's value from the map (Go zero value when
missing), delete the key, and record the `onEviction(k, v)` invocation. -/
def tryEvictGo {K V : Type} [DecidableEq K] [Inhabited V] (now : Nat)
    (m : List (K × expirableItem V)) :
    Queue (expirableItem K) →
      List (K × expirableItem V) × Queue (expirableItem K) × List (K × V)
  | [] => (m, [], [])
  | keyElem :: rest =>
    if timeAfter now keyElem.deadline then
      let valueElem := (mapLookup m keyElem.V).getD default
      let res := tryEvictGo now (mapDelete m keyElem.V) rest
      (res.1, res.2.1, (keyElem.V, valueElem.V) :: res.2.2)
    else (m, keyElem :: rest, [])

/-- tryEvict on the cache state, returning the new state and the list of
`onEviction` invocations in program order. -/
def SimpleEvictableCache.tryEvict {K V : Type} [DecidableEq K] [Inhabited V]
    (s : SimpleEvictableCache K V) (now : Nat) :
    SimpleEvictableCache K V × List (K × V) :=
  let res := tryEvictGo now s.m s.q
  (⟨res.1, res.2.1⟩, res.2.2)

/-- Evict: `e.tryEvict()`. -/
def SimpleEvictableCache.Evict {K V : Type} [DecidableEq K] [Inhabited V]
    (s : SimpleEvictableCache K V) (now : Nat) :
    SimpleEvictableCache K V × List (K × V) :=
  s.tryEvict now

/-- Seen: `_, ok := e.m[key]; e.tryEvict(); return ok`.
Note the membership test happens BEFORE the eviction sweep. -/
def SimpleEvictableCache.Seen {K V : Type} [DecidableEq K] [Inhabited V]
    (s : SimpleEvictableCache K V) (key : K) (now : Nat) :
    Bool × SimpleEvictableCache K V × List (K × V) :=
  let ok := (mapLookup s.m key).isSome
  let res := s.tryEvict now
  (ok, res.1, res.2)

/-- AddIfNotSeen: if the key is present do nothing and return false; otherwise
write the map entry, `mark` the key when the deadline is non-zero, and always
run an eviction sweep before returning true. -/
def SimpleEvictableCache.AddIfNotSeen {K V : Type} [DecidableEq K] [Inhabited V]
    (s : SimpleEvictableCache K V) (key : K) (value : V) (deadline : Nat) (now : Nat) :
    Bool × SimpleEvictableCache K V × List (K × V) :=
  if (mapLookup s.m key).isSome then (false, s, [])
  else
    let s₁ : SimpleEvictableCache K V := { s with m := (key, ⟨value, deadline⟩) :: s.m }
    let s₂ := if deadline ≠ 0 then s₁.mark key deadline else s₁
    let res := s₂.tryEvict now
    (true, res.1, res.2)

/-! ## Structural facts about the eviction sweep -/

/-- An entry is expired when its deadline is strictly before the clock reading,
exactly the sweep's `clock.CurrentClock().Now().After(keyElem.deadline)` test. -/
def expiredB {K : Type} (now : Nat) (e : expirableItem K) : Bool :=
  timeAfter now e.deadline

/-- The eviction FIFO invariant maintained by `mark`: deadlines are
non-decreasing along the queue. -/
abbrev deadlineSorted {K : Type} (q : List (expirableItem K)) : Prop :=
  List.Pairwise (fun a b => a.deadline ≤ b.deadline) q

theorem filter_all_false {α : Type} {p : α → Bool} :
    ∀ {l : List α}, (∀ x ∈ l, p x = false) → l.filter p = [] := by
  intro l h
  induction l with
  | nil => rfl
  | cons e rest ih =>
    simp only [List.filter_cons, h e (by simp)]
    exact ih (fun x hx => h x (by simp [hx]))

theorem filter_all_true {α : Type} {p : α → Bool} :
    ∀ {l : List α}, (∀ x ∈ l, p x = true) → l.filter p = l := by
  intro l h
  induction l with
  | nil => rfl
  | cons e rest ih =>
    simp only [List.filter_cons, h e (by simp), if_pos]
    rw [ih (fun x hx => h x (by simp [hx]))]

/-- The sweep stops at the first non-expired head: the surviving queue is
exactly `dropWhile expired`. -/
theorem tryEvictGo_queue {K V : Type} [DecidableEq K] [Inhabited V] (now : Nat)
    (m : List (K × expirableItem V)) (q : Queue (expirableItem K)) :
    (tryEvictGo now m q).2.1 = q.dropWhile (expiredB now) := by
  induction q generalizing m with
  | nil => rfl
  | cons e rest ih =>
    by_cases hx : timeAfter now e.deadline = true
    · simp [tryEvictGo, hx, List.dropWhile_cons, expiredB, ih]
    · simp at hx
      simp [tryEvictGo, hx, List.dropWhile_cons, expiredB]

/-- The sweep deletes from the map exactly the keys of the expired leading
run of the FIFO, and leaves every other key's binding unchanged. -/
theorem tryEvictGo_lookup {K V : Type} [DecidableEq K] [Inhabited V] (now : Nat)
    (m : List (K × expirableItem V)) (q : Queue (expirableItem K)) (key : K) :
    mapLookup (tryEvictGo now m q).1 key =
      if key ∈ (q.takeWhile (expiredB now)).map expirableItem.V then none
      else mapLookup m key := by
  induction q generalizing m with
  | nil => simp [tryEvictGo]
  | cons e rest ih =>
    by_cases hx : timeAfter now e.deadline = true
    · simp only [tryEvictGo, hx, if_pos, List.takeWhile_cons, expiredB]
      rw [ih (mapDelete m e.V), mapLookup_mapDelete]
      simp only [hx, List.map_cons, List.mem_cons]
      by_cases h1 : key ∈ (rest.takeWhile (expiredB now)).map expirableItem.V
      · simp [h1, expiredB]
      · by_cases h2 : key = e.V
        · simp [h1, h2, expiredB]
        · simp [h1, h2, expiredB]
    · simp at hx
      simp [tryEvictGo, hx, List.takeWhile_cons, expiredB]

/-- The sweep invokes `onEviction` once per expired leading entry, in FIFO
order, with the key's mapped value (assuming the expired run has no duplicate
keys, so earlier deletions do not affect later lookups). -/
theorem tryEvictGo_events {K V : Type} [DecidableEq K] [Inhabited V] (now : Nat)
    (m : List (K × expirableItem V)) (q : Queue (expirableItem K))
    (hnd : ((q.takeWhile (expiredB now)).map expirableItem.V).Nodup) :
    (tryEvictGo now m q).2.2 =
      (q.takeWhile (expiredB now)).map
        (fun e => (e.V, ((mapLookup m e.V).getD default).V)) := by
  induction q generalizing m with
  | nil => rfl
  | cons e rest ih =>
    by_cases hx : timeAfter now e.deadline = true
    · rw [List.takeWhile_cons] at hnd ⊢
      simp only [expiredB, hx, if_pos, List.map_cons, List.nodup_cons] at hnd ⊢
      obtain ⟨hne, hnd'⟩ := hnd
      simp only [tryEvictGo, hx, if_pos]
      rw [ih (mapDelete m e.V) hnd']
      congr 1
      refine List.map_congr_left ?_
      intro x hxmem
      have hxne : x.V ≠ e.V := by
        intro hcontr
        exact hne (hcontr ▸ List.mem_map_of_mem expirableItem.V hxmem)
      rw [mapLookup_mapDelete]
      simp [hxne]
    · simp at hx
      simp [tryEvictGo, hx, List.takeWhile_cons, expiredB]

/-- On a deadline-sorted queue the expired entries form exactly the leading
run: `takeWhile expired = filter expired` and the survivors are the
non-expired entries. -/
theorem sorted_takeWhile_filter {K : Type} (now : Nat) (q : List (expirableItem K))
    (hs : deadlineSorted q) :
    q.takeWhile (expiredB now) = q.filter (expiredB now) ∧
    q.dropWhile (expiredB now) = q.filter (fun e => !(expiredB now e)) := by
  induction q with
  | nil => simp
  | cons e rest ih =>
    obtain ⟨he, hrest⟩ := List.pairwise_cons.1 hs
    obtain ⟨ih1, ih2⟩ := ih hrest
    by_cases hx : expiredB now e = true
    · simp [List.takeWhile_cons, List.dropWhile_cons, List.filter_cons, hx, ih1, ih2]
    · simp only [Bool.not_eq_true] at hx
      have hall : ∀ x ∈ rest, expiredB now x = false := by
        intro x hxm
        have h1 : e.deadline ≤ x.deadline := he x hxm
        simp only [expiredB, timeAfter, decide_eq_false_iff_not, not_lt] at hx ⊢
        omega
      constructor
      · rw [List.takeWhile_cons]
        simp only [hx, Bool.false_eq_true, if_neg, List.filter_cons]
        rw [filter_all_false hall]
        simp [hx]
      · rw [List.dropWhile_cons]
        simp only [hx, Bool.false_eq_true, if_neg, List.filter_cons]
        rw [filter_all_true (p := fun e => !(expiredB now e))
              (fun x hxm => by simp [hall x hxm])]
        simp [hx]

/-! ## Claim theorems for the eviction cache -/

/-- C5: if the key is already present, `AddIfNotSeen` returns false and does
nothing: the map and FIFO are unchanged, no eviction sweep runs, and no
`onEviction` callback fires. -/
theorem C5_addIfNotSeen_present_noop {K V : Type} [DecidableEq K] [Inhabited V]
    (s : SimpleEvictableCache K V) (key : K) (value : V) (deadline now : Nat)
    (y : expirableItem V) (h : mapLookup s.m key = some y) :
    s.AddIfNotSeen key value deadline now = (false, s, []) := by
  simp [SimpleEvictableCache.AddIfNotSeen, h]

/-- Witness for C5 at a concrete one-entry cache. -/
theorem C5_addIfNotSeen_present_noop_witness :
    mapLookup (⟨[(1, ⟨5, 0⟩)], []⟩ : SimpleEvictableCache Nat Nat).m 1 = some ⟨5, 0⟩ ∧
    (⟨[(1, ⟨5, 0⟩)], []⟩ : SimpleEvictableCache Nat Nat).AddIfNotSeen 1 9 3 0 =
      (false, ⟨[(1, ⟨5, 0⟩)], []⟩, []) :=
  ⟨by decide, C5_addIfNotSeen_present_noop _ 1 9 3 0 ⟨5, 0⟩ (by decide)⟩

/-- C4: a single eviction sweep (`Evict`, and the sweep inside `AddIfNotSeen` /
`Seen`) removes every entry whose deadline is strictly before the clock
reading — possibly many per call — popping the FIFO head, deleting the key
from the map, and invoking `onEviction(k, v)` for each in FIFO order, and it
stops at the first FIFO head that is not expired, leaving the remaining
entries unchanged.  Stated under the queue invariants maintained by `mark`
(deadline-sorted, one FIFO entry per key). -/
theorem C4_sweep_removes_expired {K V : Type} [DecidableEq K] [Inhabited V]
    (now : Nat) (s : SimpleEvictableCache K V)
    (hs : deadlineSorted s.q)
    (hnd : (s.q.map expirableItem.V).Nodup) :
    (s.Evict now).1.q = s.q.filter (fun e => !(expiredB now e)) ∧
    (∀ key, mapLookup (s.Evict now).1.m key =
        if key ∈ (s.q.filter (expiredB now)).map expirableItem.V then none
        else mapLookup s.m key) ∧
    (s.Evict now).2 =
      (s.q.filter (expiredB now)).map
        (fun e => (e.V, ((mapLookup s.m e.V).getD default).V)) := by
  obtain ⟨ht, hd⟩ := sorted_takeWhile_filter now s.q hs
  have hsub : List.Sublist ((s.q.takeWhile (expiredB now)).map expirableItem.V)
      (s.q.map expirableItem.V) :=
    (List.takeWhile_sublist _).map _
  have hndt : ((s.q.takeWhile (expiredB now)).map expirableItem.V).Nodup :=
    hnd.sublist hsub
  refine ⟨?_, ?_, ?_⟩
  · show (tryEvictGo now s.m s.q).2.1 = _
    rw [tryEvictGo_queue, hd]
  · intro key
    show mapLookup (tryEvictGo now s.m s.q).1 key = _
    rw [tryEvictGo_lookup, ht]
  · show (tryEvictGo now s.m s.q).2.2 = _
    rw [tryEvictGo_events now s.m s.q hndt, ht]

/-- Witness for C4: four expired entries are all evicted by one `Evict` call,
the non-expired one survives. -/
theorem C4_sweep_removes_expired_witness :
    deadlineSorted (⟨[(1, ⟨10, 1⟩), (2, ⟨20, 2⟩), (3, ⟨30, 3⟩), (4, ⟨40, 4⟩), (5, ⟨50, 9⟩)],
        [⟨1, 1⟩, ⟨2, 2⟩, ⟨3, 3⟩, ⟨4, 4⟩, ⟨5, 9⟩]⟩ : SimpleEvictableCache Nat Nat).q ∧
    ((⟨[(1, ⟨10, 1⟩), (2, ⟨20, 2⟩), (3, ⟨30, 3⟩), (4, ⟨40, 4⟩), (5, ⟨50, 9⟩)],
        [⟨1, 1⟩, ⟨2, 2⟩, ⟨3, 3⟩, ⟨4, 4⟩, ⟨5, 9⟩]⟩ : SimpleEvictableCache Nat Nat).Evict 5).1.q =
      ([⟨1, 1⟩, ⟨2, 2⟩, ⟨3, 3⟩, ⟨4, 4⟩, ⟨5, 9⟩] :
          List (expirableItem Nat)).filter (fun e => !(expiredB 5 e)) :=
  ⟨by decide, (C4_sweep_removes_expired 5 _ (by decide) (by decide)).1⟩

/-- C2 counterexample: `Seen` samples membership BEFORE its eviction sweep
(`_, ok := e.m[key]; e.tryEvict(); return ok`), so on a cache holding key 1
with recorded deadline 5 and the clock at 10 the call returns true, where the
claim requires false. -/
theorem C2_counterexample :
    ((⟨[(1, ⟨7, 5⟩)], [⟨1, 5⟩]⟩ : SimpleEvictableCache Nat Nat).Seen 1 10).1 ≠ false := by
  decide

/-- C2 (amended): `Seen(k)` reports membership as sampled before the eviction
sweep it triggers, then sweeps; a present key whose deadline is strictly
before the clock reading therefore still yields true on that call, and the
sweep purges it so an immediately repeated `Seen(k)` yields false. -/
theorem C2_seen_samples_before_sweep {K V : Type} [DecidableEq K] [Inhabited V]
    (s : SimpleEvictableCache K V) (k : K) (d now : Nat)
    (hs : deadlineSorted s.q)
    (hmem : (⟨k, d⟩ : expirableItem K) ∈ s.q)
    (hexp : d < now)
    (hin : (mapLookup s.m k).isSome = true) :
    (s.Seen k now).1 = true ∧
    (s.Seen k now).2.1 = (s.tryEvict now).1 ∧
    ((s.Seen k now).2.1.Seen k now).1 = false := by
  obtain ⟨ht, _⟩ := sorted_takeWhile_filter now s.q hs
  refine ⟨hin, rfl, ?_⟩
  show (mapLookup (tryEvictGo now s.m s.q).1 k).isSome = false
  rw [tryEvictGo_lookup, ht]
  have hkmem : k ∈ (s.q.filter (expiredB now)).map expirableItem.V := by
    refine List.mem_map_of_mem expirableItem.V (List.mem_filter.2 ⟨hmem, ?_⟩)
    simp [expiredB, timeAfter, hexp]
  simp [hkmem]

/-- Witness for C2's amended statement at the concrete expired-entry cache. -/
theorem C2_seen_samples_before_sweep_witness :
    deadlineSorted (⟨[(1, ⟨7, 5⟩)], [⟨1, 5⟩]⟩ : SimpleEvictableCache Nat Nat).q ∧
    (⟨1, 5⟩ : expirableItem Nat) ∈
      (⟨[(1, ⟨7, 5⟩)], [⟨1, 5⟩]⟩ : SimpleEvictableCache Nat Nat).q ∧
    5 < 10 ∧
    (mapLookup (⟨[(1, ⟨7, 5⟩)], [⟨1, 5⟩]⟩ : SimpleEvictableCache Nat Nat).m 1).isSome = true ∧
    ((((⟨[(1, ⟨7, 5⟩)], [⟨1, 5⟩]⟩ : SimpleEvictableCache Nat Nat).Seen 1 10).2.1).Seen 1 10).1
      = false :=
  ⟨by decide, by decide, by decide, by decide,
    (C2_seen_samples_before_sweep _ 1 5 10 (by decide) (by decide) (by decide)
      (by decide)).2.2⟩

/-- The failing run for C3: two `AddIfNotSeen` insertions with EQUAL deadlines
(key 1 first, then key 2), performed at clock reading 0. -/
def tieCache : SimpleEvictableCache Nat Nat :=
  ((((NewSimpleEvictableCache Nat Nat).AddIfNotSeen 1 10 5 0).2.1).AddIfNotSeen 2 20 5 0).2.1

/-- C3 (code bug): evaluating the code at the failing input.  `mark` passes the
NON-strict comparator `!a.deadline.After(b.deadline)` to `sort.SliceStable`;
Go's insertion sort keeps swapping while the comparator holds, so it swaps
equal elements, and after inserting keys 1 then 2 with the same deadline the
FIFO holds key 2 before key 1.  A sweep past the deadline therefore evicts
key 2 first — the reverse of insertion order, contradicting the stable-tie
contract (which `sort.SliceStable` was evidently chosen to provide). -/
theorem C3_equal_deadline_order_reversed :
    tieCache.q.map expirableItem.V = [2, 1] ∧
    (tieCache.Evict 6).2 = [(2, 20), (1, 10)] := by
  decide

/-- C8: pushing x₁…xₙ onto the empty queue and popping n times returns
x₁…xₙ in order, each with ok = true; Pop reads the same element Peek reads
(peeking does not consume); Peek and Pop on the empty queue report
emptiness. -/
theorem C8_queue_fifo_order {T : Type} [Inhabited T] (l : List T) (q : Queue T) :
    (Queue.PopTimes (Queue.PushAll ([] : Queue T) l) l.length =
      l.map (fun x => (x, true))) ∧
    (q.Pop.1 = q.Peek) ∧
    ((Queue.Peek ([] : Queue T)).2 = false ∧ (Queue.Pop ([] : Queue T)).1.2 = false) := by
  refine ⟨?_, rfl, rfl, rfl⟩
  rw [Queue.pushAll_eq_append, List.nil_append]
  exact Queue.popTimes_self l

/-! ## Scrape scheduler event loop (scraper/scrapper.go, eventLoop) -/

/-- scrapeTarget: a URL and its traversal depth (scraper/scrape.go). -/
structure scrapeTarget where
  url : String
  depth : Int
deriving DecidableEq, Repr

instance : Inhabited scrapeTarget := ⟨⟨"", 0⟩⟩

/-- Scheduler configuration consulted by the event loop. -/
structure SchedCfg where
  maxDepth : Int
  evictionRate : Nat
deriving DecidableEq, Repr

/-- Event-loop owned state: the dedup set `active`, the retry FIFO, and the
eviction cache keyed by URL and valued by depth. -/
structure LoopState where
  active : List String
  retryQueue : Queue scrapeTarget
  cache : SimpleEvictableCache String Int
deriving DecidableEq, Repr

/-- ignoreDepth: `s.maxDepth == -1`. -/
def ignoreDepth (cfg : SchedCfg) : Bool := decide (cfg.maxDepth = -1)

/-- canQueueTarget: reject when the depth cap applies and is reached; then
insert the URL into the dedup set unless already present.  Returns the Go
boolean and the updated dedup set. -/
def canQueueTarget (cfg : SchedCfg) (active : List String) (t : scrapeTarget) :
    Bool × List String :=
  if !(ignoreDepth cfg) && decide (t.depth ≥ cfg.maxDepth) then (false, active)
  else if t.url ∈ active then (false, active)
  else (true, t.url :: active)

/-- Go `delete(s.active, t.url)` on the dedup set. -/
def activeDelete (active : List String) (url : String) : List String :=
  active.filter (fun u => decide (u ≠ url))

/-- The `onEviction` callback the event loop registers: each evicted
(url, depth) is pushed back onto the retry FIFO as a target. -/
def pushEvicted (q : Queue scrapeTarget) (evs : List (String × Int)) :
    Queue scrapeTarget :=
  evs.foldl (fun acc ev => acc.Push ⟨ev.1, ev.2⟩) q

/-- tryQueueTarget's non-blocking channel send is refused or accepted
depending on whether a worker is currently receiving; the body of
`for _, target := range targets` (lines 377–407) with that choice passed in
as `accepted`. -/
def processTarget (cfg : SchedCfg) (now : Nat) (st : LoopState) (t : scrapeTarget)
    (accepted : Bool) : LoopState :=
  let seenRes := st.cache.Seen t.url now
  let st₁ : LoopState := { st with
    cache := seenRes.2.1,
    retryQueue := pushEvicted st.retryQueue seenRes.2.2 }
  if seenRes.1 then st₁
  else
    let can := canQueueTarget cfg st₁.active t
    if !can.1 then { st₁ with active := can.2 }
    else if accepted then
      let deadline := if cfg.evictionRate = 0 then 0 else now + cfg.evictionRate
      let addRes := st₁.cache.AddIfNotSeen t.url t.depth deadline now
      { st₁ with
        active := can.2,
        cache := addRes.2.1,
        retryQueue := pushEvicted st₁.retryQueue addRes.2.2 }
    else
      { st₁ with
        active := activeDelete can.2 t.url,
        retryQueue := st₁.retryQueue.Push t }

/-- The ticker branch: `for target, ok := retryQueue.Pop(); ok; … { targets =
append(targets, target) }` — pop the retry FIFO until empty, appending each
popped target to the accumulator. -/
def drainRetry (q : Queue scrapeTarget) (targets : List scrapeTarget) :
    List scrapeTarget × Queue scrapeTarget :=
  match q with
  | [] => (targets, [])
  | t :: rest => drainRetry rest (targets ++ [t])

theorem drainRetry_spec (q : Queue scrapeTarget) (targets : List scrapeTarget) :
    drainRetry q targets = (targets ++ q, []) := by
  induction q generalizing targets with
  | nil => simp [drainRetry]
  | cons t rest ih => simp [drainRetry, ih]

theorem activeDelete_cons_self (active : List String) (url : String)
    (h : url ∉ active) : activeDelete (url :: active) url = active := by
  simp only [activeDelete, List.filter_cons, ne_eq, decide_not]
  simp only [decide_True, Bool.not_true, Bool.false_eq_true, if_neg]
  exact filter_all_true (fun x hx => by
    simp only [Bool.not_eq_true']
    exact decide_eq_false (fun hc : x = url => h (hc ▸ hx)))

theorem mapLookup_tryEvictGo_none {K V : Type} [DecidableEq K] [Inhabited V]
    (now : Nat) (m : List (K × expirableItem V)) (q : Queue (expirableItem K))
    (k : K) (h : mapLookup m k = none) :
    mapLookup (tryEvictGo now m q).1 k = none := by
  rw [tryEvictGo_lookup]
  split
  · rfl
  · exact h

/-- C6: in an event-loop iteration over a fresh admissible target, when the
non-blocking handoff to the job channel is refused, the target is pushed onto
the retry FIFO, the dedup admission is reverted (the URL ends up absent from
`active`), and the URL is not inserted into the eviction cache; the ticker
branch later drains the retry FIFO back into the accumulator. -/
theorem C6_refused_dispatch_goes_to_retry (cfg : SchedCfg) (now : Nat)
    (st : LoopState) (t : scrapeTarget)
    (hseen : mapLookup st.cache.m t.url = none)
    (hdepth : (!(ignoreDepth cfg) && decide (t.depth ≥ cfg.maxDepth)) = false)
    (hactive : t.url ∉ st.active) :
    (processTarget cfg now st t false).active = st.active ∧
    (processTarget cfg now st t false).retryQueue =
      pushEvicted st.retryQueue (st.cache.Seen t.url now).2.2 ++ [t] ∧
    (processTarget cfg now st t false).cache = (st.cache.tryEvict now).1 ∧
    mapLookup (processTarget cfg now st t false).cache.m t.url = none ∧
    (∀ q targets, drainRetry q targets = (targets ++ q, [])) := by
  have hseenb : (st.cache.Seen t.url now).1 = false := by
    show (mapLookup st.cache.m t.url).isSome = false
    rw [hseen]
    rfl
  have hcan : canQueueTarget cfg st.active t = (true, t.url :: st.active) := by
    rw [canQueueTarget, if_neg (by simp [hdepth]), if_neg hactive]
  have hps : processTarget cfg now st t false =
      ⟨activeDelete (t.url :: st.active) t.url,
       (pushEvicted st.retryQueue (st.cache.Seen t.url now).2.2).Push t,
       (st.cache.Seen t.url now).2.1⟩ := by
    simp only [processTarget]
    simp only [hseenb, Bool.false_eq_true, if_false]
    simp only [hcan, Bool.not_true, Bool.false_eq_true, if_false]
  refine ⟨?_, ?_, ?_, ?_, drainRetry_spec⟩
  · rw [hps]
    exact activeDelete_cons_self st.active t.url hactive
  · rw [hps]
    rfl
  · rw [hps]
    rfl
  · rw [hps]
    exact mapLookup_tryEvictGo_none now st.cache.m st.cache.q t.url hseen

/-- Witness for C6: a fresh target "a" at depth 0 against maxDepth 3, with
the handoff refused, on the empty loop state. -/
theorem C6_refused_dispatch_goes_to_retry_witness :
    mapLookup (⟨[], [], ⟨[], []⟩⟩ : LoopState).cache.m "a" = none ∧
    (!(ignoreDepth ⟨3, 0⟩) && decide ((0 : Int) ≥ (3 : Int))) = false ∧
    "a" ∉ (⟨[], [], ⟨[], []⟩⟩ : LoopState).active ∧
    (processTarget ⟨3, 0⟩ 0 ⟨[], [], ⟨[], []⟩⟩ ⟨"a", 0⟩ false).retryQueue =
      pushEvicted (⟨[], [], ⟨[], []⟩⟩ : LoopState).retryQueue
        ((⟨[], [], ⟨[], []⟩⟩ : LoopState).cache.Seen "a" 0).2.2 ++ [⟨"a", 0⟩] :=
  ⟨rfl, by decide, by simp,
    (C6_refused_dispatch_goes_to_retry ⟨3, 0⟩ 0 ⟨[], [], ⟨[], []⟩⟩ ⟨"a", 0⟩ rfl
      (by decide) (by simp)).2.1⟩

/-! ## Fetch task (src/unnamed/part_006) and task loop (src/unnamed/part_003) -/

/-- An invocation of the Analyzer capability: exactly its two operations. -/
inductive AnalyzerEvent (E : Type) where
  | Cancel (err : E)
  | Analyze (page : String)
deriving DecidableEq, Repr

/-- scrape: when the cancellation token is already tripped, invoke
`analyzer.Cancel(ctx.Err())` and return the error; when the fetch fails,
invoke `analyzer.Cancel(err)` and return the error; on success invoke
`analyzer.Analyze(page)` and return nil.  The fetch outcome is passed in as a
value (`fetchPage` performs the I/O); the analyzer invocations are returned
in program order together with the Go error return. -/
def scrapeTask {E : Type} (ctxErr : Option E) (fetched : Except E String) :
    List (AnalyzerEvent E) × Option E :=
  match ctxErr with
  | some err => ([.Cancel err], some err)
  | none =>
    match fetched with
    | .error err => ([.Cancel err], some err)
    | .ok page => ([.Analyze page], none)

/-- C7: every job envelope reaching a worker triggers exactly one analyzer
invocation: `Cancel(ctx.Err())` with the error returned upward when the token
is tripped, `Cancel(err)` with the fetch error returned upward when the fetch
fails, and `Analyze(page)` with a nil return when the fetch succeeds. -/
theorem C7_exactly_one_analyzer_call {E : Type} (ctxErr : Option E)
    (fetched : Except E String) (e : E) (p : String) :
    (scrapeTask ctxErr fetched).1.length = 1 ∧
    scrapeTask (some e) fetched = ([.Cancel e], some e) ∧
    @scrapeTask E none (Except.error e) = ([.Cancel e], some e) ∧
    @scrapeTask E none (Except.ok p) = ([.Analyze p], none) := by
  refine ⟨?_, rfl, rfl, rfl⟩
  cases ctxErr <;> cases fetched <;> rfl

/-- Events produced by one pass of a scrape worker's task loop. -/
inductive TaskEvent (E : Type) where
  | analyzer (ev : AnalyzerEvent E)
  | callback
deriving DecidableEq, Repr

def TaskEvent.isCallback {E : Type} : TaskEvent E → Bool
  | .callback => true
  | _ => false

/-- taskLoop, job branch: dequeue the envelope, run `s.scrape`, inspect (and
merely TODO-log) its error, then invoke `j.callback()` unconditionally. -/
def taskLoopIter {E : Type} (ctxErr : Option E) (fetched : Except E String) :
    List (TaskEvent E) :=
  (scrapeTask ctxErr fetched).1.map TaskEvent.analyzer ++ [TaskEvent.callback]

/-- The completion callback the event loop wires into each envelope:
`delete(s.active, target.url)` — release the URL's dedup slot. -/
def releaseCallback (active : List String) (url : String) : List String :=
  activeDelete active url

theorem countP_isCallback_map_analyzer {E : Type} (l : List (AnalyzerEvent E)) :
    (l.map TaskEvent.analyzer).countP TaskEvent.isCallback = 0 := by
  induction l with
  | nil => rfl
  | cons e rest ih => simp [List.countP_cons, TaskEvent.isCallback, ih]

/-- C10: for every envelope dequeued by a scrape worker, the completion
callback is invoked exactly once, after the scrape returns, also when the
scrape returns an error; applying the callback releases the URL's dedup-set
slot regardless of the scrape outcome. -/
theorem C10_callback_released_exactly_once {E : Type} (ctxErr : Option E)
    (fetched : Except E String) (active : List String) (url : String) :
    ((taskLoopIter ctxErr fetched).countP TaskEvent.isCallback = 1) ∧
    ((taskLoopIter ctxErr fetched).getLast? = some TaskEvent.callback) ∧
    (∀ u, u ∈ releaseCallback active url ↔ (u ∈ active ∧ u ≠ url)) := by
  refine ⟨?_, ?_, ?_⟩
  · rw [taskLoopIter, List.countP_append, countP_isCallback_map_analyzer]
    rfl
  · rw [taskLoopIter, List.getLast?_concat]
  · intro u
    simp [releaseCallback, activeDelete, List.mem_filter]

/-! ## Worker pool monitor (workers/pool.go) -/

/-- Pool monitor state: the atomic counters and the holding queue of accepted
workers (worker identity is irrelevant to dispatch accounting). -/
structure PoolState (W : Type) where
  active : Nat
  finishedWorkers : Nat
  target : Nat
  workers : List W
deriving Repr

/-- The dispatch check at the top of every monitor iteration:
`if active < p.target && p.PendingWorkers() > 0 { p.spawnWorker(ctx, p.popWorker()) }`.
`spawnWorker` increments `active` before launching; the matching decrement is
the separate `finish` step. -/
def preDispatch {W : Type} (s : PoolState W) : PoolState W :=
  if decide (s.active < s.target) && !s.workers.isEmpty then
    { s with active := s.active + 1, workers := s.workers.tail }
  else s

/-- The ticker branch's catch-up loop: keep dispatching while workers are
pending, breaking as soon as `active >= target`. -/
def catchup {W : Type} : List W → Nat → Nat → Nat × List W
  | [], active, _ => (active, [])
  | w :: rest, active, target =>
    if active ≥ target then (active, w :: rest)
    else catchup rest (active + 1) target

def tickCatchup {W : Type} (s : PoolState W) : PoolState W :=
  let res := catchup s.workers s.active s.target
  { s with active := res.1, workers := res.2 }

/-- One transition of the monitor loop interleaved with worker completions:
an iteration whose select receives an admission (append to the holding
queue), an iteration whose select fires the ticker (catch-up loop), or a
spawned worker finishing (decrement `active`, increment `finished`). -/
inductive MonitorStep {W : Type} : PoolState W → PoolState W → Prop where
  | recvWorker (s : PoolState W) (w : W) :
      MonitorStep s { preDispatch s with workers := (preDispatch s).workers ++ [w] }
  | tick (s : PoolState W) :
      MonitorStep s (tickCatchup (preDispatch s))
  | finish (s : PoolState W) (h : 0 < s.active) :
      MonitorStep s { s with
        active := s.active - 1,
        finishedWorkers := s.finishedWorkers + 1 }

/-- Pool state right after `Start`: no active workers, empty holding queue. -/
def poolInit (W : Type) (target : Nat) : PoolState W :=
  { active := 0, finishedWorkers := 0, target := target, workers := [] }

/-- States the monitor can reach from the post-Start state. -/
def PoolReachable {W : Type} (target : Nat) (s : PoolState W) : Prop :=
  Relation.ReflTransGen MonitorStep (poolInit W target) s

theorem preDispatch_active_le {W : Type} (s : PoolState W)
    (h : s.active ≤ s.target) : (preDispatch s).active ≤ (preDispatch s).target := by
  rw [preDispatch]
  split
  · next hc =>
    simp only [Bool.and_eq_true, decide_eq_true_eq] at hc
    exact hc.1
  · exact h

theorem catchup_active_le {W : Type} (ws : List W) (active target : Nat)
    (h : active ≤ target) : (catchup ws active target).1 ≤ target := by
  induction ws generalizing active with
  | nil => exact h
  | cons w rest ih =>
    rw [catchup]
    split
    · exact h
    · next hge => exact ih (active + 1) (by omega)

theorem monitorStep_preserves_bound {W : Type} {s s' : PoolState W}
    (hstep : MonitorStep s s') (h : s.active ≤ s.target) :
    s'.active ≤ s'.target := by
  cases hstep with
  | recvWorker w => exact preDispatch_active_le _ h
  | tick =>
    have h1 := preDispatch_active_le _ h
    exact catchup_active_le _ _ _ h1
  | finish hpos =>
    show s.active - 1 ≤ s.target
    omega

/-- C9: along every run of the pool monitor from the post-Start state, a
worker is dispatched only under the `active < target` check — performed both
before the select and in each iteration of the ticker catch-up loop — so no
dispatch ever raises `active` above `target`: the bound `active ≤ target`
holds in every reachable state. -/
theorem C9_active_never_exceeds_target {W : Type} (target : Nat) (s : PoolState W)
    (h : PoolReachable target s) : s.active ≤ s.target := by
  induction h with
  | refl => exact Nat.zero_le _
  | tail _ hstep ih => exact monitorStep_preserves_bound hstep ih

/-- Witness for C9 at the initial reachable state of a 4-thread pool. -/
theorem C9_active_never_exceeds_target_witness :
    (poolInit Unit 4).active ≤ (poolInit Unit 4).target :=
  C9_active_never_exceeds_target 4 (poolInit Unit 4) Relation.ReflTransGen.refl

/-! ## Submission API with per-target analyzers (C1) -/

/-- Outcome of a submission: the batch is handed to the event loop, or every
target's analyzer is cancelled (each event names the URL whose analyzer
receives `Cancel` and the error passed to it). -/
inductive SubmitOutcome (E : Type) where
  | sent (urls : List String)
  | cancelled (evs : List (String × E))
deriving DecidableEq, Repr

/-- Modelled from the spec: the analyzer-carrying public submission surface
`ScrapeMulti(urls, analyzer)` of the final scheduler is not under src — its
caller (`scrapper.Scrape(url, analyzer)` in src/unnamed/part_001) and the
analyzer-carrying `scrapeTarget` (src/unnamed/part_006) are, but the method
bodies are absent; the nearest ancestor in src (`Scrape`/`requestScrapes`,
scraper/scrapper.go lines 329–347) carries no analyzer.  Per spec §4.E the
submission is a non-blocking select of the `done` signal against the targets
channel; once the scheduler has stopped, the batch is not sent and each
target's analyzer is informed via `Cancel(err)` with the cancellation
reason. -/
def ScrapeMulti {E : Type} (stopped : Bool) (cancelReason : E)
    (urls : List String) : SubmitOutcome E :=
  if stopped then .cancelled (urls.map (fun u => (u, cancelReason)))
  else .sent urls

/-- Modelled from the spec: `Scrape(url, analyzer)` submits the singleton
batch. -/
def Scrape {E : Type} (stopped : Bool) (cancelReason : E) (url : String) :
    SubmitOutcome E :=
  ScrapeMulti stopped cancelReason [url]

/-- C1: for every batch submitted via Scrape or ScrapeMulti after the
scheduler has stopped, the submission returns at once without handing the
batch to the event loop, and every target's analyzer is informed via
`Cancel(err)` with the cancellation reason — one cancel event per submitted
URL, in order. -/
theorem C1_stopped_submission_cancels {E : Type} (reason : E)
    (urls : List String) (url : String) :
    ScrapeMulti true reason urls = .cancelled (urls.map (fun u => (u, reason))) ∧
    (∀ evs, ScrapeMulti true reason urls = .cancelled evs →
      evs.length = urls.length ∧ evs.map Prod.fst = urls) ∧
    Scrape true reason url = .cancelled [(url, reason)] := by
  refine ⟨rfl, ?_, rfl⟩
  intro evs hevs
  have hevs2 : evs = urls.map (fun u => (u, reason)) := by
    simpa [ScrapeMulti] using hevs.symm
  subst hevs2
  clear hevs
  refine ⟨by simp, ?_⟩
  induction urls with
  | nil => rfl
  | cons u rest ih => simpa using ih

/-- Witness for C1: a stopped scheduler cancels both targets of a two-URL
batch with the cancellation reason. -/
theorem C1_stopped_submission_cancels_witness :
    ScrapeMulti true "stopped" ["a", "b"] =
      SubmitOutcome.cancelled [("a", "stopped"), ("b", "stopped")] :=
  (C1_stopped_submission_cancels "stopped" ["a", "b"] "a").1

end Webscraper
